import Mathlib

/-!
Shallow embedding of the relational-operator engine in
src/python_sql_engine.py, together with proofs about its operators
(WHERE filter, inner hash join, sort-merge join, GROUP BY staging,
ORDER BY) and the schema-merge convention.

Modelling conventions, fixed once for the whole file:

* A namedtuple class with its list of rows is modelled as a Table: an
  ordered schema (list of column names) plus the list of rows, each row an
  ordered list of cell values.  In the source every row of a table is an
  instance of one namedtuple class, so all rows share the schema and have
  exactly as many cells as there are column names; `row._fields` of any
  row, and in particular `left[0]._fields`, is the table schema.
* Cell values are Python objects compared with `==` and `<`; the engine is
  duck-typed in them, so the embedding is generic over a value type `V`
  with decidable equality (and a linear order where the source compares).
* `getattr(row, name)` resolves `name` through the schema to a position
  and returns the cell there; an unknown name raises `AttributeError`,
  the spec's FieldNotFound.  Reading `t[0]` of an empty list raises
  `IndexError`, modelled as `IndexOutOfBounds`; constructing a namedtuple
  class with a repeated field name raises `ValueError`, modelled as
  `DuplicateField`.  Fallible code returns `Except`.
* `list.sort` and `sorted` are Python's stable sort; they are modelled by
  a structurally recursive insertion sort `insertionSortB`, which is
  stable and sorts by any total transitive boolean comparator, hence
  agrees with the source's stable sort on every input.
* The two nested `while` loops of `merge_join` and the run-splitting of
  `itertools.groupby` are not structurally recursive; they are written
  with an explicit fuel argument started at an upper bound of the loop
  variant, so that they remain executable computations.
-/

namespace SqlEngine

/-- Errors surfaced by the engine: an unknown column name
(`AttributeError` on a namedtuple, the spec's FieldNotFound), indexing
past the end of a list (`IndexError`), and a repeated field name in a
namedtuple declaration (`ValueError`). -/
inductive EngineError where
  | FieldNotFound (name : String)
  | IndexOutOfBounds
  | DuplicateField
deriving DecidableEq

/-- A table: an ordered schema of column names shared by all rows, and the
ordered list of rows.  Every row of a well-formed table has `cols.length`
cells; theorems that need this state it as a hypothesis. -/
structure Table (V : Type) where
  cols : List String
  rows : List (List V)

variable {V : Type}

/-- Embedding of `getattr(row, name)` on a namedtuple: resolve the column
name through the schema and read the cell at that index.  An unknown name
raises `AttributeError` (FieldNotFound).  On a well-formed table the
`getD` default is never used, since the index returned by `indexOf` for a
present name is below `cols.length = row.length`. -/
def getattr [Inhabited V] (cols : List String) (row : List V) (name : String) :
    Except EngineError V :=
  if cols.contains name then .ok (row.getD (cols.indexOf name) default)
  else .error (.FieldNotFound name)

/-- Total cell access for a column already known to be valid: the value
`getattr` returns when it succeeds. -/
def cellval [Inhabited V] (cols : List String) (name : String) (row : List V) : V :=
  row.getD (cols.indexOf name) default

/-- One row of the filter in `read_with_where_filter` (line 27 of the
source): `all(getattr(row, key) == value for key, value in filters.items())`.
The generator is evaluated left to right and `all` short-circuits at the
first failed equality, so a later unknown column name is not reached. -/
def row_passes [DecidableEq V] [Inhabited V] (cols : List String)
    (filters : List (String × V)) (row : List V) : Except EngineError Bool :=
  match filters with
  | [] => .ok true
  | (key, value) :: rest => do
      let x ← getattr cols row key
      if x = value then row_passes cols rest row else .ok false

/-- The row loop of `read_with_where_filter` (lines 25 to 28): keep each
row whose filter conjunction holds, preserving order. -/
def filter_rows [DecidableEq V] [Inhabited V] (cols : List String)
    (filters : List (String × V)) : List (List V) → Except EngineError (List (List V))
  | [] => .ok []
  | row :: rest => do
      let keep ← row_passes cols filters row
      let tail ← filter_rows cols filters rest
      .ok (if keep then row :: tail else tail)

/-- Embedding of `read_with_where_filter` restricted to its WHERE-filter
part.  Reading the csv file is external input acquisition (out of scope
per the spec); the table argument stands for the parsed rows, and
`filters` lists the items of the filter dict (distinct keys, in dict
iteration order). -/
def read_with_where_filter [DecidableEq V] [Inhabited V] (t : Table V)
    (filters : List (String × V)) : Except EngineError (Table V) := do
  let rs ← filter_rows t.cols filters t.rows
  .ok ⟨t.cols, rs⟩

/-- Embedding of `concat_col_names_add_suffix` (lines 32 to 38): suffix
the left join key with _left wherever it occurs in the left schema, the
right join key with _right wherever it occurs in the right schema, and
concatenate. -/
def concat_col_names_add_suffix (left_cols right_cols : List String)
    (left_join_key right_join_key : String) : List String :=
  (left_cols.map fun col => if col = left_join_key then col ++ "_left" else col) ++
    (right_cols.map fun col => if col = right_join_key then col ++ "_right" else col)

/-- Embedding of `t[0]._fields`: the schema of the first row, raising
`IndexError` when the table has no rows. -/
def head_fields (t : Table V) : Except EngineError (List String) :=
  match t.rows with
  | [] => .error .IndexOutOfBounds
  | _ :: _ => .ok t.cols

/-- A loop or sort that calls `getattr(row, key)` on every row of a table
raises `AttributeError` exactly when the table has at least one row and
the key is not a column; with no rows the accessor is never invoked. -/
def validate_key (t : Table V) (key : String) : Except EngineError Unit :=
  if t.rows.isEmpty || t.cols.contains key then .ok () else .error (.FieldNotFound key)

/-- Constructing the `join_results` namedtuple class (source lines 56 and
78) raises `ValueError` when the merged column list repeats a name. -/
def require_nodup (cols : List String) : Except EngineError Unit :=
  if cols.Nodup then .ok () else .error .DuplicateField

/-- Fuel-driven core of `itertools.groupby`: split a list into maximal
runs of consecutive elements sharing a key, pairing each run with its
key.  The fuel only serves termination; `pygroupby` supplies enough. -/
def groupby_runs {K R : Type} [DecidableEq K] (key : R → K) : Nat → List R → List (K × List R)
  | 0, _ => []
  | _ + 1, [] => []
  | fuel + 1, x :: xs =>
      (key x, x :: xs.takeWhile (fun a => key a = key x)) ::
        groupby_runs key fuel (xs.dropWhile (fun a => key a = key x))

/-- Embedding of `itertools.groupby(l, key)` with every group forced to a
list, as the dict comprehension on source lines 51 to 54 does. -/
def pygroupby {K R : Type} [DecidableEq K] (key : R → K) (l : List R) : List (K × List R) :=
  groupby_runs key l.length l

/-- A Python dict built from a list of key-value pairs, as a lookup
function: later entries overwrite earlier ones with the same key, and
`d.get(k)` on a missing key yields `None`. -/
def pydict {K B : Type} [DecidableEq K] (entries : List (K × B)) : K → Option B :=
  entries.foldl (fun d kv => fun q => if q = kv.1 then some kv.2 else d q) (fun _ => none)

/-- Embedding of `inner_hash_join` (lines 40 to 61).  The steps appear in
source order: forcing the dict comprehension built over
`groupby(right, ...)` invokes the right key accessor on every right row;
then `left[0]._fields` and `right[0]._fields` are read; the
`join_results` namedtuple class is declared; finally each left row probes
the index with its left key value and one concatenated output row is
emitted per row of the bucket found (a missing key, `None`, and an empty
bucket are both falsy and emit nothing).  The result pairs the merged
column list with the output rows. -/
def inner_hash_join [DecidableEq V] [Inhabited V] (left right : Table V)
    (left_join_key right_join_key : String) :
    Except EngineError (List String × List (List V)) := do
  let _ ← validate_key right right_join_key
  let right_index := pydict (pygroupby (cellval right.cols right_join_key) right.rows)
  let left_cols ← head_fields left
  let right_cols ← head_fields right
  let results_cols := concat_col_names_add_suffix left_cols right_cols
    left_join_key right_join_key
  let _ ← require_nodup results_cols
  let _ ← validate_key left left_join_key
  .ok (results_cols, left.rows.flatMap (fun row_left =>
    ((right_index (cellval left.cols left_join_key row_left)).getD []).map
      (fun row_right => row_left ++ row_right)))

/-- Insert into a sorted list: place the new element before the first
existing element `b` with `le a b`.  Processing the original list from
the right, this is the stable insertion sort step. -/
def orderedInsertB {A : Type} (le : A → A → Bool) (a : A) : List A → List A
  | [] => [a]
  | b :: l => if le a b then a :: b :: l else b :: orderedInsertB le a l

/-- Stable insertion sort with a boolean comparator; the model of
Python's stable `sorted` and `list.sort`. -/
def insertionSortB {A : Type} (le : A → A → Bool) : List A → List A
  | [] => []
  | a :: l => orderedInsertB le a (insertionSortB le l)

/-- Embedding of `sorted(rows, key=lambda x: getattr(x, k))` once the key
is known valid on every row: stable sort by the key value, ascending. -/
def pysorted_by [LinearOrder V] [Inhabited V] (key : List V → V)
    (rows : List (List V)) : List (List V) :=
  insertionSortB (fun a b => decide (key a ≤ key b)) rows

/-- Fuel-driven embedding of the two-pointer loop of `merge_join`
(source lines 79 to 94).  The cursors i and j are represented by the
suffixes of the sorted tables they point into.  On equal keys the nested
block loops emit, for each left row of the equal-key run, one output row
per right row of the equal-key run, and both cursors then skip past their
runs.  The fuel only serves termination: every branch shortens the
combined suffix length, and `merge_loop` supplies it. -/
def merge_scan [LinearOrder V] (kl kr : List V → V) :
    Nat → List (List V) → List (List V) → List (List V)
  | 0, _, _ => []
  | _ + 1, [], _ => []
  | _ + 1, _ :: _, [] => []
  | fuel + 1, x :: ls, y :: rs =>
      if kl x < kr y then merge_scan kl kr fuel ls (y :: rs)
      else if kr y < kl x then merge_scan kl kr fuel (x :: ls) rs
      else
        ((x :: ls).takeWhile (fun a => kl a = kl x)).flatMap (fun a =>
          ((y :: rs).takeWhile (fun b => kr b = kr y)).map (fun b => a ++ b)) ++
        merge_scan kl kr fuel ((x :: ls).dropWhile (fun a => kl a = kl x))
          ((y :: rs).dropWhile (fun b => kr b = kr y))

/-- The `while i < len(left) and j < len(right)` loop of `merge_join`,
with fuel fixed at the loop variant's initial value. -/
def merge_loop [LinearOrder V] (kl kr : List V → V) (L R : List (List V)) :
    List (List V) :=
  merge_scan kl kr (L.length + R.length) L R

/-- Embedding of `merge_join` (lines 64 to 95), steps in source order:
sort each side by its key (the sort invokes the key accessor on every
row of a non-empty side), read `left[0]._fields` and `right[0]._fields`
from the sorted lists, declare the `join_results` class, then run the
two-pointer merge loop. -/
def merge_join [LinearOrder V] [Inhabited V] (left right : Table V)
    (left_join_key right_join_key : String) :
    Except EngineError (List String × List (List V)) := do
  let _ ← validate_key left left_join_key
  let sorted_left := pysorted_by (cellval left.cols left_join_key) left.rows
  let _ ← validate_key right right_join_key
  let sorted_right := pysorted_by (cellval right.cols right_join_key) right.rows
  let left_cols ← head_fields ⟨left.cols, sorted_left⟩
  let right_cols ← head_fields ⟨right.cols, sorted_right⟩
  let results_cols := concat_col_names_add_suffix left_cols right_cols
    left_join_key right_join_key
  let _ ← require_nodup results_cols
  .ok (results_cols, merge_loop (cellval left.cols left_join_key)
    (cellval right.cols right_join_key) sorted_left sorted_right)

/-- The row loop of `group_by` (lines 106 to 107): look up the group key
cell (evaluated first, to index the defaultdict), project the
aggregation columns, and append the projected tuple to the key's group.
The defaultdict is modelled as a total function that is everywhere `[]`
initially. -/
def group_loop [DecidableEq V] [Inhabited V] (cols : List String)
    (group_key : String) (aggregation_cols : List String) :
    List (List V) → (V → List (List V)) → Except EngineError (V → List (List V))
  | [], acc => .ok acc
  | row :: rest, acc => do
      let k ← getattr cols row group_key
      let tup ← aggregation_cols.mapM (getattr cols row)
      group_loop cols group_key aggregation_cols rest
        (fun q => if q = k then acc k ++ [tup] else acc q)

/-- Embedding of `group_by` (lines 98 to 108): fold the rows into a
defaultdict from group-key value to the list of projected tuples. -/
def group_by [DecidableEq V] [Inhabited V] (data : Table V) (group_key : String)
    (aggregation_cols : List String) : Except EngineError (V → List (List V)) :=
  group_loop data.cols group_key aggregation_cols data.rows (fun _ => [])

/-- The single-pass comparator of one `data.sort(key=lambda x: x[index],
reverse=(order == "DESC"))` call: compare the cells at `index`, with the
comparison flipped for DESC.  Rows tied at the cell compare true both
ways, so the stable sort keeps their relative order, exactly as Python's
`reverse=True` stable sort does. -/
def key_le [LinearOrder V] [Inhabited V] (index : Nat) (direction : String)
    (x y : List V) : Bool :=
  if direction = "DESC" then decide (y.getD index default ≤ x.getD index default)
  else decide (x.getD index default ≤ y.getD index default)

/-- Embedding of `order_by` (lines 111 to 120): iterate the specification
in reverse (`orders[::-1]`), and for each pair run one stable sort of the
whole sequence by the indicated column.  Python evaluates `x[index]` on
every row when sorting, raising `IndexError` if any row is too short. -/
def order_by [LinearOrder V] [Inhabited V] (data : List (List V)) :
    List (Nat × String) → Except EngineError (List (List V))
  | [] => .ok data
  | (index, direction) :: rest => do
      let d ← order_by data rest
      if d.all (fun row => decide (index < row.length)) then
        .ok (insertionSortB (key_le index direction) d)
      else .error .IndexOutOfBounds

/-- The lexicographic comparator induced by an order specification:
earlier pairs dominate, each comparing the cells at its column index with
direction, and ties fall through to the later pairs.  The multi-pass
stable sort of `order_by` is proved to coincide with one stable sort by
this comparator. -/
def lex_le [LinearOrder V] [Inhabited V] : List (Nat × String) → List V → List V → Bool
  | [], _, _ => true
  | (index, direction) :: rest, x, y =>
      if x.getD index default = y.getD index default then lex_le rest x y
      else if direction = "DESC" then decide (y.getD index default < x.getD index default)
      else decide (x.getD index default < y.getD index default)

/-- Two rows tied on every key of an order specification. -/
def all_tied [LinearOrder V] [Inhabited V] (orders : List (Nat × String))
    (x y : List V) : Bool :=
  orders.all (fun io => x.getD io.1 default = y.getD io.1 default)

/-- Lexicographic combination of two boolean comparators: compare by the
first, break its ties (comparisons true both ways) by the second. -/
def lex_comb {A : Type} (le1 le2 : A → A → Bool) (a b : A) : Bool :=
  if le1 a b && le1 b a then le2 a b else le1 a b

/-- Comparator on position-tagged elements: compare the payloads, break
ties by the original positions.  Sorting by it is the specification of a
stable sort. -/
def tag_le {A : Type} (le : A → A → Bool) (p q : Nat × A) : Bool :=
  if le p.2 q.2 then (if le q.2 p.2 then decide (p.1 ≤ q.1) else true) else false

/-! ### Stable sort theory for `insertionSortB` -/

variable {A B : Type}

theorem orderedInsertB_perm (le : A → A → Bool) (a : A) (l : List A) :
    (orderedInsertB le a l).Perm (a :: l) := by
  induction l with
  | nil => exact List.Perm.refl _
  | cons b t ih =>
    simp only [orderedInsertB]
    by_cases h : le a b = true
    · simp [h]
    · simp only [h, if_false]
      exact (ih.cons b).trans (List.Perm.swap a b t)

theorem insertionSortB_perm (le : A → A → Bool) (l : List A) :
    (insertionSortB le l).Perm l := by
  induction l with
  | nil => exact List.Perm.refl _
  | cons a t ih => exact (orderedInsertB_perm le a _).trans (ih.cons a)

theorem mem_insertionSortB {le : A → A → Bool} {l : List A} {x : A} :
    x ∈ insertionSortB le l ↔ x ∈ l :=
  (insertionSortB_perm le l).mem_iff

theorem pairwise_orderedInsertB {le : A → A → Bool}
    (htot : ∀ a b, le a b = true ∨ le b a = true)
    (htr : ∀ a b c, le a b = true → le b c = true → le a c = true)
    (a : A) {l : List A} (h : l.Pairwise (fun x y => le x y = true)) :
    (orderedInsertB le a l).Pairwise (fun x y => le x y = true) := by
  induction l with
  | nil => simp [orderedInsertB]
  | cons b t ih =>
    rcases List.pairwise_cons.mp h with ⟨hb, ht⟩
    by_cases hab : le a b = true
    · simp only [orderedInsertB, hab, if_true]
      refine List.pairwise_cons.mpr ⟨?_, h⟩
      intro y hy
      rcases List.mem_cons.mp hy with rfl | hy
      · exact hab
      · exact htr a b y hab (hb y hy)
    · simp only [orderedInsertB, hab, if_false]
      refine List.pairwise_cons.mpr ⟨?_, ih ht⟩
      intro y hy
      have hy2 : y ∈ a :: t := (orderedInsertB_perm le a t).mem_iff.mp hy
      rcases List.mem_cons.mp hy2 with rfl | hy2
      · exact (htot y b).resolve_left hab
      · exact hb y hy2

theorem pairwise_insertionSortB {le : A → A → Bool}
    (htot : ∀ a b, le a b = true ∨ le b a = true)
    (htr : ∀ a b c, le a b = true → le b c = true → le a c = true)
    (l : List A) :
    (insertionSortB le l).Pairwise (fun x y => le x y = true) := by
  induction l with
  | nil => simp [insertionSortB]
  | cons a t ih => exact pairwise_orderedInsertB htot htr a ih

theorem sublist_orderedInsertB (le : A → A → Bool) (a : A) (l : List A) :
    l.Sublist (orderedInsertB le a l) := by
  induction l with
  | nil => exact List.nil_sublist _
  | cons b t ih =>
    simp only [orderedInsertB]
    by_cases h : le a b = true
    · simp only [h, if_true]
      exact List.Sublist.cons a (List.Sublist.refl _)
    · simp only [h, if_false]
      exact List.Sublist.cons₂ b ih

theorem cons_sublist_orderedInsertB {le : A → A → Bool} {l c : List A} {a : A}
    (hl : c.Sublist l) (ha : ∀ x ∈ c, le a x = true) :
    (a :: c).Sublist (orderedInsertB le a l) := by
  induction l generalizing c with
  | nil =>
    rw [List.sublist_nil.mp hl]
    exact List.Sublist.refl _
  | cons b t ih =>
    simp only [orderedInsertB]
    by_cases hr : le a b = true
    · simp only [hr, if_true]
      exact List.Sublist.cons₂ a hl
    · simp only [hr, if_false]
      cases hl with
      | cons _ h => exact List.Sublist.cons b (ih h ha)
      | cons₂ _ h => exact absurd (ha b (List.mem_cons_self b _)) hr

theorem sublist_insertionSortB {le : A → A → Bool} {l c : List A}
    (hc : c.Pairwise (fun x y => le x y = true)) (h : c.Sublist l) :
    c.Sublist (insertionSortB le l) := by
  induction l generalizing c with
  | nil =>
    rw [List.sublist_nil.mp h]
    exact List.Sublist.refl _
  | cons x t ih =>
    cases h with
    | cons _ h2 => exact (ih hc h2).trans (sublist_orderedInsertB le x _)
    | cons₂ _ h2 =>
      rcases List.pairwise_cons.mp hc with ⟨hx, hc2⟩
      exact cons_sublist_orderedInsertB (ih hc2 h2) hx

theorem pair_sublist_insertionSortB {le : A → A → Bool} {l : List A} {a b : A}
    (hab : le a b = true) (h : [a, b].Sublist l) :
    [a, b].Sublist (insertionSortB le l) :=
  sublist_insertionSortB (List.pairwise_pair.mpr hab) h

theorem map_orderedInsertB (f : A → B) (le : A → A → Bool) (le2 : B → B → Bool)
    (a : A) (l : List A) (hcomp : ∀ b ∈ l, le a b = le2 (f a) (f b)) :
    (orderedInsertB le a l).map f = orderedInsertB le2 (f a) (l.map f) := by
  induction l with
  | nil => rfl
  | cons b t ih =>
    simp only [orderedInsertB, List.map]
    rw [← hcomp b (List.mem_cons_self b t)]
    by_cases h : le a b = true
    · simp [h]
    · simp only [h, if_false, List.map]
      rw [ih (fun x hx => hcomp x (List.mem_cons_of_mem b hx))]
      simp

theorem map_insertionSortB (f : A → B) (le : A → A → Bool) (le2 : B → B → Bool)
    (l : List A) (hcomp : ∀ a ∈ l, ∀ b ∈ l, le a b = le2 (f a) (f b)) :
    (insertionSortB le l).map f = insertionSortB le2 (l.map f) := by
  induction l with
  | nil => rfl
  | cons a t ih =>
    simp only [insertionSortB, List.map]
    rw [map_orderedInsertB f le le2 a _ (fun x hx =>
      hcomp a (List.mem_cons_self a t) x
        (List.mem_cons_of_mem a (mem_insertionSortB.mp hx)))]
    rw [ih (fun x hx y hy =>
      hcomp x (List.mem_cons_of_mem a hx) y (List.mem_cons_of_mem a hy))]

/-! ### Tagged comparators, uniqueness of stable sorts -/

theorem tag_le_eq_of_fst_lt {le : A → A → Bool} {p q : Nat × A} (h : p.1 < q.1) :
    tag_le le p q = le p.2 q.2 := by
  unfold tag_le
  by_cases h1 : le p.2 q.2 = true <;> by_cases h2 : le q.2 p.2 = true <;>
    simp [h1, h2, Nat.le_of_lt h]

theorem tag_le_total {le : A → A → Bool}
    (htot : ∀ a b, le a b = true ∨ le b a = true) (p q : Nat × A) :
    tag_le le p q = true ∨ tag_le le q p = true := by
  unfold tag_le
  by_cases h1 : le p.2 q.2 = true <;> by_cases h2 : le q.2 p.2 = true <;>
    simp [h1, h2]
  · exact Nat.le_total p.1 q.1
  · rcases htot p.2 q.2 with h | h
    · exact absurd h h1
    · exact absurd h h2

theorem tag_le_trans {le : A → A → Bool}
    (htr : ∀ a b c, le a b = true → le b c = true → le a c = true)
    (p q r : Nat × A) (h1 : tag_le le p q = true) (h2 : tag_le le q r = true) :
    tag_le le p r = true := by
  have hab : le p.2 q.2 = true := by
    by_contra h
    rw [tag_le, if_neg h] at h1
    exact Bool.false_ne_true h1
  have hbc : le q.2 r.2 = true := by
    by_contra h
    rw [tag_le, if_neg h] at h2
    exact Bool.false_ne_true h2
  have hac : le p.2 r.2 = true := htr _ _ _ hab hbc
  rw [tag_le, if_pos hac]
  by_cases hca : le r.2 p.2 = true
  · rw [if_pos hca]
    have hcb : le r.2 q.2 = true := htr _ _ _ hca hab
    have hba : le q.2 p.2 = true := htr _ _ _ hbc hca
    rw [tag_le, if_pos hab, if_pos hba] at h1
    rw [tag_le, if_pos hbc, if_pos hcb] at h2
    simp only [decide_eq_true_eq] at h1 h2 ⊢
    exact Nat.le_trans h1 h2
  · rw [if_neg hca]

theorem lex_comb_total {le1 le2 : A → A → Bool}
    (h1tot : ∀ a b, le1 a b = true ∨ le1 b a = true)
    (h2tot : ∀ a b, le2 a b = true ∨ le2 b a = true) (a b : A) :
    lex_comb le1 le2 a b = true ∨ lex_comb le1 le2 b a = true := by
  unfold lex_comb
  by_cases hab : le1 a b = true <;> by_cases hba : le1 b a = true <;>
    simp [hab, hba]
  · exact h2tot a b
  · rcases h1tot a b with h | h
    · exact absurd h hab
    · exact absurd h hba

theorem lex_comb_trans {le1 le2 : A → A → Bool}
    (h1tr : ∀ a b c, le1 a b = true → le1 b c = true → le1 a c = true)
    (h2tr : ∀ a b c, le2 a b = true → le2 b c = true → le2 a c = true)
    (a b c : A) (h1 : lex_comb le1 le2 a b = true) (h2 : lex_comb le1 le2 b c = true) :
    lex_comb le1 le2 a c = true := by
  have hab : le1 a b = true := by
    by_contra h
    simp [lex_comb, h] at h1
  have hbc : le1 b c = true := by
    by_contra h
    simp [lex_comb, h] at h2
  have hac : le1 a c = true := h1tr _ _ _ hab hbc
  by_cases hca : le1 c a = true
  · have hba : le1 b a = true := h1tr _ _ _ hbc hca
    have hcb : le1 c b = true := h1tr _ _ _ hca hab
    simp only [lex_comb, hab, hba, hbc, hcb, hac, hca, Bool.and_self, if_true] at h1 h2 ⊢
    exact h2tr _ _ _ h1 h2
  · simp [lex_comb, hac, hca]

theorem eq_of_perm_of_pairwise_antisymm {R : A → A → Prop} :
    ∀ {l1 l2 : List A}, l1.Perm l2 → l1.Pairwise R → l2.Pairwise R →
      (∀ a ∈ l1, ∀ b ∈ l1, R a b → R b a → a = b) → l1 = l2 := by
  intro l1
  induction l1 with
  | nil =>
    intro l2 hp _ _ _
    exact (hp.symm.eq_nil).symm
  | cons a t ih =>
    intro l2 hp h1 h2 hanti
    have ha2 : a ∈ l2 := hp.mem_iff.mp (List.mem_cons_self a t)
    cases l2 with
    | nil => simp at ha2
    | cons b t2 =>
      by_cases hab : a = b
      · subst hab
        have hp2 := hp.cons_inv
        rcases List.pairwise_cons.mp h1 with ⟨_, h1t⟩
        rcases List.pairwise_cons.mp h2 with ⟨_, h2t⟩
        rw [ih hp2 h1t h2t (fun x hx y hy hxy hyx =>
          hanti x (List.mem_cons_of_mem a hx) y (List.mem_cons_of_mem a hy) hxy hyx)]
      · have hat2 : a ∈ t2 := by
          rcases List.mem_cons.mp ha2 with h | h
          · exact absurd h hab
          · exact h
        have hb1 : b ∈ a :: t := hp.symm.mem_iff.mp (List.mem_cons_self b t2)
        have hbt : b ∈ t := by
          rcases List.mem_cons.mp hb1 with h | h
          · exact absurd h.symm hab
          · exact h
        have hRab : R a b := (List.pairwise_cons.mp h1).1 b hbt
        have hRba : R b a := (List.pairwise_cons.mp h2).1 a hat2
        exact absurd (hanti a (List.mem_cons_self a t) b
          (List.mem_cons_of_mem a hbt) hRab hRba) hab

theorem pair_sublist_or {x y : A} :
    ∀ {L : List A}, x ∈ L → y ∈ L → x ≠ y →
      [x, y].Sublist L ∨ [y, x].Sublist L := by
  intro L
  induction L with
  | nil => intro h; simp at h
  | cons a t ih =>
    intro hx hy hne
    rcases List.mem_cons.mp hx with rfl | hx2
    · left
      have hyt : y ∈ t := by
        rcases List.mem_cons.mp hy with h | h
        · exact absurd h.symm hne
        · exact h
      exact List.Sublist.cons₂ x (List.singleton_sublist.mpr hyt)
    · rcases List.mem_cons.mp hy with rfl | hy2
      · right
        exact List.Sublist.cons₂ y (List.singleton_sublist.mpr hx2)
      · rcases ih hx2 hy2 hne with h | h
        · exact Or.inl (List.Sublist.cons a h)
        · exact Or.inr (List.Sublist.cons a h)

theorem eq_of_pair_sublist_both {x y : A} :
    ∀ {L : List A}, L.Nodup → [x, y].Sublist L → [y, x].Sublist L → x = y := by
  intro L
  induction L with
  | nil =>
    intro _ h
    simp at h
  | cons a t ih =>
    intro hnd h1 h2
    cases h1 with
    | cons _ h1t =>
      cases h2 with
      | cons _ h2t => exact ih (List.Nodup.of_cons hnd) h1t h2t
      | cons₂ _ h2t =>
        have hyt : y ∈ t := h1t.subset (by simp)
        exact absurd hyt (List.nodup_cons.mp hnd).1
    | cons₂ _ h1t =>
      cases h2 with
      | cons _ h2t =>
        have hxt : x ∈ t := h2t.subset (by simp)
        exact absurd hxt (List.nodup_cons.mp hnd).1
      | cons₂ _ h2t => rfl

theorem nodup_enumFrom (n : Nat) (l : List A) : (l.enumFrom n).Nodup :=
  List.Nodup.of_map Prod.fst
    (by rw [List.enumFrom_map_fst]; exact List.nodup_range' n l.length)

theorem fst_ge_of_mem_enumFrom {n : Nat} {l : List A} {q : Nat × A}
    (h : q ∈ l.enumFrom n) : n ≤ q.1 := by
  have hm : q.1 ∈ (l.enumFrom n).map Prod.fst := List.mem_map_of_mem Prod.fst h
  rw [List.enumFrom_map_fst] at hm
  exact (List.mem_range'_1.mp hm).1

theorem eq_of_mem_enumFrom_fst_eq {n : Nat} {l : List A} {p q : Nat × A}
    (hp : p ∈ l.enumFrom n) (hq : q ∈ l.enumFrom n) (h : p.1 = q.1) : p = q := by
  have hnd : ((l.enumFrom n).map Prod.fst).Nodup := by
    rw [List.enumFrom_map_fst]
    exact List.nodup_range' n l.length
  exact List.inj_on_of_nodup_map hnd hp hq h

theorem insertionSortB_enumFrom (le : A → A → Bool) :
    ∀ (n : Nat) (l : List A),
      (insertionSortB (tag_le le) (l.enumFrom n)).map Prod.snd = insertionSortB le l := by
  intro n l
  induction l generalizing n with
  | nil => rfl
  | cons x xs ih =>
    rw [List.enumFrom_cons]
    simp only [insertionSortB]
    have hcomp : ∀ q ∈ insertionSortB (tag_le le) (xs.enumFrom (n + 1)),
        tag_le le (n, x) q = le (n, x).2 q.2 := by
      intro q hq
      have hq2 : q ∈ xs.enumFrom (n + 1) := mem_insertionSortB.mp hq
      exact tag_le_eq_of_fst_lt
        (Nat.lt_of_lt_of_le (Nat.lt_succ_self n) (fst_ge_of_mem_enumFrom hq2))
    rw [map_orderedInsertB Prod.snd (tag_le le) le (n, x) _ hcomp, ih (n + 1)]

/-- Composing two stable sorts: sorting by a lower-priority comparator
and then stably re-sorting by a higher-priority one is one stable sort by
their lexicographic combination.  This is the algorithmic content of the
multi-pass ORDER BY. -/
theorem insertionSortB_insertionSortB (le1 le2 : A → A → Bool)
    (h1tot : ∀ a b, le1 a b = true ∨ le1 b a = true)
    (h1tr : ∀ a b c, le1 a b = true → le1 b c = true → le1 a c = true)
    (h2tot : ∀ a b, le2 a b = true ∨ le2 b a = true)
    (h2tr : ∀ a b c, le2 a b = true → le2 b c = true → le2 a c = true)
    (l : List A) :
    insertionSortB le1 (insertionSortB le2 l) = insertionSortB (lex_comb le1 le2) l := by
  have step1 : insertionSortB le2 l
      = (insertionSortB (tag_le le2) (l.enumFrom 0)).map Prod.snd :=
    (insertionSortB_enumFrom le2 0 l).symm
  have step2 : insertionSortB le1
        ((insertionSortB (tag_le le2) (l.enumFrom 0)).map Prod.snd)
      = (insertionSortB (fun p q : Nat × A => le1 p.2 q.2)
          (insertionSortB (tag_le le2) (l.enumFrom 0))).map Prod.snd :=
    (map_insertionSortB Prod.snd (fun p q : Nat × A => le1 p.2 q.2) le1 _
      (fun _ _ _ _ => rfl)).symm
  have hTnodup : (l.enumFrom 0).Nodup := nodup_enumFrom 0 l
  have hMperm : (insertionSortB (tag_le le2) (l.enumFrom 0)).Perm (l.enumFrom 0) :=
    insertionSortB_perm _ _
  have hAperm : (insertionSortB (fun p q : Nat × A => le1 p.2 q.2)
      (insertionSortB (tag_le le2) (l.enumFrom 0))).Perm (l.enumFrom 0) :=
    (insertionSortB_perm _ _).trans hMperm
  have hBperm : (insertionSortB (tag_le (lex_comb le1 le2)) (l.enumFrom 0)).Perm
      (l.enumFrom 0) := insertionSortB_perm _ _
  have hMsorted := pairwise_insertionSortB (tag_le_total h2tot) (tag_le_trans h2tr)
    (l.enumFrom 0)
  have hBsorted := pairwise_insertionSortB
    (tag_le_total (lex_comb_total h1tot h2tot))
    (tag_le_trans (lex_comb_trans h1tr h2tr)) (l.enumFrom 0)
  have hAsorted1 := @pairwise_insertionSortB (Nat × A)
    (fun p q : Nat × A => le1 p.2 q.2)
    (fun p q => h1tot p.2 q.2) (fun p q r => h1tr p.2 q.2 r.2)
    (insertionSortB (tag_le le2) (l.enumFrom 0))
  have hAnodup : (insertionSortB (fun p q : Nat × A => le1 p.2 q.2)
      (insertionSortB (tag_le le2) (l.enumFrom 0))).Nodup :=
    hAperm.nodup_iff.mpr hTnodup
  have hAsorted : (insertionSortB (fun p q : Nat × A => le1 p.2 q.2)
      (insertionSortB (tag_le le2) (l.enumFrom 0))).Pairwise
        (fun p q => tag_le (lex_comb le1 le2) p q = true) := by
    rw [List.pairwise_iff_forall_sublist]
    intro p q hsub
    have hle1pq : le1 p.2 q.2 = true :=
      List.pairwise_iff_forall_sublist.mp hAsorted1 hsub
    by_cases hle1qp : le1 q.2 p.2 = true
    · have hpq_ne : p ≠ q := by
        rintro rfl
        have hnd2 := hsub.nodup hAnodup
        simp at hnd2
      have hpM : p ∈ insertionSortB (tag_le le2) (l.enumFrom 0) :=
        mem_insertionSortB.mp (hsub.subset (by simp))
      have hqM : q ∈ insertionSortB (tag_le le2) (l.enumFrom 0) :=
        mem_insertionSortB.mp (hsub.subset (by simp))
      have hMsub : [p, q].Sublist (insertionSortB (tag_le le2) (l.enumFrom 0)) := by
        rcases pair_sublist_or hpM hqM hpq_ne with h | h
        · exact h
        · exfalso
          have hrev := @pair_sublist_insertionSortB (Nat × A)
            (fun p q : Nat × A => le1 p.2 q.2) _ _ _ hle1qp h
          exact hpq_ne (eq_of_pair_sublist_both hAnodup hsub hrev)
      have hE2 : tag_le le2 p q = true :=
        List.pairwise_iff_forall_sublist.mp hMsorted hMsub
      unfold tag_le at hE2
      unfold tag_le lex_comb
      simp only [hle1pq, hle1qp, Bool.and_self, if_true]
      simpa using hE2
    · unfold tag_le lex_comb
      simp [hle1pq, hle1qp]
  have hanti : ∀ p ∈ insertionSortB (fun p q : Nat × A => le1 p.2 q.2)
        (insertionSortB (tag_le le2) (l.enumFrom 0)),
      ∀ q ∈ insertionSortB (fun p q : Nat × A => le1 p.2 q.2)
        (insertionSortB (tag_le le2) (l.enumFrom 0)),
      tag_le (lex_comb le1 le2) p q = true →
      tag_le (lex_comb le1 le2) q p = true → p = q := by
    intro p hp q hq hpq hqp
    have hpT : p ∈ l.enumFrom 0 := hAperm.mem_iff.mp hp
    have hqT : q ∈ l.enumFrom 0 := hAperm.mem_iff.mp hq
    refine eq_of_mem_enumFrom_fst_eq hpT hqT ?_
    unfold tag_le at hpq hqp
    by_cases h1 : lex_comb le1 le2 p.2 q.2 = true <;>
      by_cases h2 : lex_comb le1 le2 q.2 p.2 = true <;>
      simp [h1, h2] at hpq hqp
    exact Nat.le_antisymm hpq hqp
  have key : insertionSortB (fun p q : Nat × A => le1 p.2 q.2)
        (insertionSortB (tag_le le2) (l.enumFrom 0))
      = insertionSortB (tag_le (lex_comb le1 le2)) (l.enumFrom 0) :=
    eq_of_perm_of_pairwise_antisymm (hAperm.trans hBperm.symm) hAsorted hBsorted hanti
  rw [step1, step2, key, insertionSortB_enumFrom]

/-! ### ORDER BY: the multi-pass stable sort equals one lexicographic sort -/

theorem orderedInsertB_of_forall_true {le : A → A → Bool} {a : A} {l : List A}
    (h : ∀ x y, le x y = true) : orderedInsertB le a l = a :: l := by
  cases l with
  | nil => rfl
  | cons b t => simp [orderedInsertB, h a b]

theorem insertionSortB_of_forall_true {le : A → A → Bool}
    (h : ∀ x y, le x y = true) (l : List A) : insertionSortB le l = l := by
  induction l with
  | nil => rfl
  | cons a t ih => rw [insertionSortB, ih, orderedInsertB_of_forall_true h]

variable {W : Type} [LinearOrder W] [Inhabited W]

theorem key_le_total (index : Nat) (direction : String) (x y : List W) :
    key_le index direction x y = true ∨ key_le index direction y x = true := by
  unfold key_le
  by_cases h : direction = "DESC" <;> simp [h] <;> exact le_total _ _

theorem key_le_trans (index : Nat) (direction : String) (x y z : List W)
    (h1 : key_le index direction x y = true) (h2 : key_le index direction y z = true) :
    key_le index direction x z = true := by
  unfold key_le at h1 h2 ⊢
  by_cases h : direction = "DESC" <;> simp [h] at h1 h2 ⊢
  · exact le_trans h2 h1
  · exact le_trans h1 h2

theorem lex_le_total (orders : List (Nat × String)) (x y : List W) :
    lex_le orders x y = true ∨ lex_le orders y x = true := by
  induction orders with
  | nil => simp [lex_le]
  | cons io rest ih =>
    obtain ⟨index, direction⟩ := io
    by_cases hab : x.getD index default = y.getD index default
    · have e1 : lex_le ((index, direction) :: rest) x y = lex_le rest x y := by
        rw [lex_le, if_pos hab]
      have e2 : lex_le ((index, direction) :: rest) y x = lex_le rest y x := by
        rw [lex_le, if_pos hab.symm]
      rw [e1, e2]
      exact ih
    · rcases lt_or_gt_of_ne hab with h | h
      · by_cases hd : direction = "DESC"
        · right
          rw [lex_le, if_neg (Ne.symm hab), if_pos hd]
          exact decide_eq_true h
        · left
          rw [lex_le, if_neg hab, if_neg hd]
          exact decide_eq_true h
      · by_cases hd : direction = "DESC"
        · left
          rw [lex_le, if_neg hab, if_pos hd]
          exact decide_eq_true h
        · right
          rw [lex_le, if_neg (Ne.symm hab), if_neg hd]
          exact decide_eq_true h

theorem lex_le_trans (orders : List (Nat × String)) (x y z : List W)
    (h1 : lex_le orders x y = true) (h2 : lex_le orders y z = true) :
    lex_le orders x z = true := by
  induction orders with
  | nil => simp [lex_le]
  | cons io rest ih =>
    obtain ⟨index, direction⟩ := io
    by_cases hab : x.getD index default = y.getD index default <;>
      by_cases hbc : y.getD index default = z.getD index default
    · rw [lex_le, if_pos hab] at h1
      rw [lex_le, if_pos hbc] at h2
      rw [lex_le, if_pos (hab.trans hbc)]
      exact ih h1 h2
    · rw [lex_le, if_pos hab] at h1
      rw [lex_le, if_neg hbc] at h2
      rw [lex_le, if_neg (by rw [hab]; exact hbc), hab]
      exact h2
    · rw [lex_le, if_neg hab] at h1
      rw [lex_le, if_pos hbc] at h2
      rw [lex_le, if_neg (by rw [← hbc]; exact hab), ← hbc]
      exact h1
    · rw [lex_le, if_neg hab] at h1
      rw [lex_le, if_neg hbc] at h2
      by_cases hd : direction = "DESC"
      · rw [if_pos hd] at h1 h2
        have hyx := of_decide_eq_true h1
        have hzy := of_decide_eq_true h2
        have hzx : z.getD index default < x.getD index default := lt_trans hzy hyx
        rw [lex_le, if_neg (ne_of_gt hzx), if_pos hd]
        exact decide_eq_true hzx
      · rw [if_neg hd] at h1 h2
        have hxy := of_decide_eq_true h1
        have hyz := of_decide_eq_true h2
        have hxz : x.getD index default < z.getD index default := lt_trans hxy hyz
        rw [lex_le, if_neg (ne_of_lt hxz), if_neg hd]
        exact decide_eq_true hxz
theorem lex_le_comb_eq (index : Nat) (direction : String) (rest : List (Nat × String)) :
    lex_comb (key_le index direction) (lex_le rest)
      = @lex_le W _ _ ((index, direction) :: rest) := by
  funext x y
  unfold lex_comb
  by_cases hab : x.getD index default = y.getD index default
  · have k1 : key_le index direction x y = true := by
      unfold key_le
      by_cases hd : direction = "DESC"
      · rw [if_pos hd, hab]
        exact decide_eq_true le_rfl
      · rw [if_neg hd, hab]
        exact decide_eq_true le_rfl
    have k2 : key_le index direction y x = true := by
      unfold key_le
      by_cases hd : direction = "DESC"
      · rw [if_pos hd, hab]
        exact decide_eq_true le_rfl
      · rw [if_neg hd, hab]
        exact decide_eq_true le_rfl
    rw [k1, k2, lex_le, if_pos hab]
    simp
  · rcases lt_or_gt_of_ne hab with h | h
    · by_cases hd : direction = "DESC"
      · have k1 : key_le index direction x y = false := by
          unfold key_le
          rw [if_pos hd]
          exact decide_eq_false (not_le.mpr h)
        rw [k1, lex_le, if_neg hab, if_pos hd]
        have e : decide (y.getD index default < x.getD index default) = false :=
          decide_eq_false (not_lt.mpr (le_of_lt h))
        rw [e]
        simp
      · have k1 : key_le index direction x y = true := by
          unfold key_le
          rw [if_neg hd]
          exact decide_eq_true (le_of_lt h)
        have k2 : key_le index direction y x = false := by
          unfold key_le
          rw [if_neg hd]
          exact decide_eq_false (not_le.mpr h)
        rw [k1, k2, lex_le, if_neg hab, if_neg hd]
        have e : decide (x.getD index default < y.getD index default) = true :=
          decide_eq_true h
        rw [e]
        simp
    · by_cases hd : direction = "DESC"
      · have k1 : key_le index direction x y = true := by
          unfold key_le
          rw [if_pos hd]
          exact decide_eq_true (le_of_lt h)
        have k2 : key_le index direction y x = false := by
          unfold key_le
          rw [if_pos hd]
          exact decide_eq_false (not_le.mpr h)
        rw [k1, k2, lex_le, if_neg hab, if_pos hd]
        have e : decide (y.getD index default < x.getD index default) = true :=
          decide_eq_true h
        rw [e]
        simp
      · have k1 : key_le index direction x y = false := by
          unfold key_le
          rw [if_neg hd]
          exact decide_eq_false (not_le.mpr h)
        rw [k1, lex_le, if_neg hab, if_neg hd]
        have e : decide (x.getD index default < y.getD index default) = false :=
          decide_eq_false (not_lt.mpr (le_of_lt h))
        rw [e]
        simp

/-- The multi-pass ORDER BY: with every referenced column index in range,
the reverse iteration of stable single-column sorts computes exactly one
stable sort by the lexicographic comparator of the specification. -/
theorem order_by_eq_lex_sort (data : List (List W)) (orders : List (Nat × String))
    (hvalid : ∀ r ∈ data, ∀ io ∈ orders, io.1 < r.length) :
    order_by data orders = .ok (insertionSortB (lex_le orders) data) := by
  induction orders with
  | nil =>
    rw [order_by,
      @insertionSortB_of_forall_true (List W) (lex_le []) (fun x y => rfl) data]
  | cons io rest ih =>
    obtain ⟨index, direction⟩ := io
    have ih2 := ih (fun r hr io2 hio2 => hvalid r hr io2 (List.mem_cons_of_mem _ hio2))
    rw [order_by, ih2]
    simp only [Bind.bind, Except.bind]
    have hall : (insertionSortB (lex_le rest) data).all
        (fun row => decide (index < row.length)) = true := by
      rw [List.all_eq_true]
      intro r hr
      exact decide_eq_true (hvalid r ((insertionSortB_perm _ _).mem_iff.mp hr)
        (index, direction) (List.mem_cons_self _ _))
    rw [if_pos hall]
    rw [insertionSortB_insertionSortB (key_le index direction) (lex_le rest)
      (key_le_total index direction) (key_le_trans index direction)
      (lex_le_total rest) (lex_le_trans rest) data, lex_le_comb_eq]

/-! ### Merge join: cardinality of the two-pointer loop -/

theorem sum_map_const_nat {l : List A} {n : Nat} :
    (l.map (fun _ => n)).sum = l.length * n := by
  induction l with
  | nil => simp
  | cons a t ih => simp [ih, Nat.succ_mul, Nat.add_comm]

variable {K : Type} [LinearOrder K]

theorem dropWhile_head_pred_false {p : A → Bool} :
    ∀ {M : List A} {d0 : A} {D2 : List A}, M.dropWhile p = d0 :: D2 → p d0 = false := by
  intro M
  induction M with
  | nil =>
    intro d0 D2 h
    simp [List.dropWhile] at h
  | cons a t ih =>
    intro d0 D2 h
    rw [List.dropWhile_cons] at h
    by_cases hp : p a = true
    · rw [if_pos hp] at h
      exact ih h
    · rw [if_neg hp] at h
      cases h
      simpa using hp

theorem mem_dropWhile_key_gt {k : A → K} {M : List A}
    (hs : M.Pairwise (fun a b => k a ≤ k b)) (v : K) (hhead : ∀ a ∈ M, v ≤ k a) :
    ∀ a ∈ M.dropWhile (fun b => decide (k b = v)), v < k a := by
  cases hD : M.dropWhile (fun b => decide (k b = v)) with
  | nil => simp
  | cons d0 D2 =>
    intro a ha
    have hsub : (d0 :: D2).Sublist M := by
      rw [← hD]
      exact List.dropWhile_sublist _
    have hd0M : d0 ∈ M := hsub.subset (List.mem_cons_self _ _)
    have hd0v : k d0 ≠ v := by
      have hh := dropWhile_head_pred_false hD
      simpa using hh
    have hd0 : v < k d0 := lt_of_le_of_ne (hhead d0 hd0M) (Ne.symm hd0v)
    rcases List.mem_cons.mp ha with rfl | ha2
    · exact hd0
    · have hDs : (d0 :: D2).Pairwise (fun a b => k a ≤ k b) :=
        List.Pairwise.sublist hsub hs
      exact lt_of_lt_of_le hd0 ((List.pairwise_cons.mp hDs).1 a ha2)

theorem sorted_countP_key_eq {k : A → K} {M : List A}
    (hs : M.Pairwise (fun a b => k a ≤ k b)) (v : K) (hhead : ∀ a ∈ M, v ≤ k a) :
    M.countP (fun b => decide (k b = v))
      = (M.takeWhile (fun b => decide (k b = v))).length := by
  have hsplit := List.takeWhile_append_dropWhile (fun b => decide (k b = v)) M
  have h1 : (M.takeWhile (fun b => decide (k b = v))).countP
      (fun b => decide (k b = v)) = (M.takeWhile (fun b => decide (k b = v))).length :=
    List.countP_eq_length.mpr (fun a ha =>
      @List.mem_takeWhile_imp A (fun b => decide (k b = v)) M a ha)
  have h2 : (M.dropWhile (fun b => decide (k b = v))).countP
      (fun b => decide (k b = v)) = 0 := by
    rw [List.countP_eq_zero]
    intro a ha
    have := mem_dropWhile_key_gt hs v hhead a ha
    simp [ne_of_gt this]
  calc M.countP (fun b => decide (k b = v))
      = ((M.takeWhile (fun b => decide (k b = v)))
          ++ (M.dropWhile (fun b => decide (k b = v)))).countP
            (fun b => decide (k b = v)) := by rw [hsplit]
    _ = (M.takeWhile (fun b => decide (k b = v))).length := by
        rw [List.countP_append, h1, h2]
        rfl
/-- Length of the merge loop output with sufficient fuel: on key-sorted
inputs, the loop emits, for each left row, one output row per right row
with an equal key. -/
theorem merge_scan_length [LinearOrder V] (kl kr : List V → V) :
    ∀ (fuel : Nat) (L R : List (List V)),
      L.length + R.length ≤ fuel →
      L.Pairwise (fun a b => kl a ≤ kl b) →
      R.Pairwise (fun a b => kr a ≤ kr b) →
      (merge_scan kl kr fuel L R).length
        = (L.map (fun a => R.countP (fun b => decide (kr b = kl a)))).sum := by
  intro fuel
  induction fuel with
  | zero =>
    intro L R hf _ _
    cases L with
    | nil => simp [merge_scan]
    | cons x ls => simp at hf
  | succ fuel ih =>
    intro L R hf hL hR
    cases L with
    | nil => simp [merge_scan]
    | cons x ls =>
      cases R with
      | nil => simp [merge_scan]
      | cons y rs =>
        simp only [merge_scan]
        by_cases h1 : kl x < kr y
        · rw [if_pos h1]
          have hx0 : (y :: rs).countP (fun b => decide (kr b = kl x)) = 0 := by
            rw [List.countP_eq_zero]
            intro b hb
            have hyb : kr y ≤ kr b := by
              rcases List.mem_cons.mp hb with rfl | hb2
              · exact le_rfl
              · exact (List.pairwise_cons.mp hR).1 b hb2
            have hlt : kl x < kr b := lt_of_lt_of_le h1 hyb
            simp only [decide_eq_true_eq]
            exact ne_of_gt hlt
          rw [List.map_cons, List.sum_cons, hx0, Nat.zero_add]
          exact ih ls (y :: rs) (by simp at hf ⊢; omega)
            (List.pairwise_cons.mp hL).2 hR
        · by_cases h2 : kr y < kl x
          · rw [if_neg h1, if_pos h2]
            have hmap : (x :: ls).map
                  (fun a => (y :: rs).countP (fun b => decide (kr b = kl a)))
                = (x :: ls).map
                  (fun a => rs.countP (fun b => decide (kr b = kl a))) := by
              apply List.map_congr_left
              intro a ha
              have hxa : kl x ≤ kl a := by
                rcases List.mem_cons.mp ha with rfl | ha2
                · exact le_rfl
                · exact (List.pairwise_cons.mp hL).1 a ha2
              have hya : kr y < kl a := lt_of_lt_of_le h2 hxa
              rw [List.countP_cons]
              simp [ne_of_lt hya]
            rw [hmap]
            exact ih (x :: ls) rs (by simp at hf ⊢; omega) hL
              (List.pairwise_cons.mp hR).2
          · rw [if_neg h1, if_neg h2]
            have heq : kl x = kr y := le_antisymm (not_lt.mp h2) (not_lt.mp h1)
            have hheadL : ∀ a ∈ x :: ls, kl x ≤ kl a := by
              intro a ha
              rcases List.mem_cons.mp ha with rfl | ha2
              · exact le_rfl
              · exact (List.pairwise_cons.mp hL).1 a ha2
            have hheadR : ∀ b ∈ y :: rs, kr y ≤ kr b := by
              intro b hb
              rcases List.mem_cons.mp hb with rfl | hb2
              · exact le_rfl
              · exact (List.pairwise_cons.mp hR).1 b hb2
            have hDLgt := mem_dropWhile_key_gt hL (kl x) hheadL
            have hDRgt := mem_dropWhile_key_gt hR (kr y) hheadR
            have hDLs : ((x :: ls).dropWhile (fun a => decide (kl a = kl x))).Pairwise
                (fun a b => kl a ≤ kl b) :=
              List.Pairwise.sublist (List.dropWhile_sublist _) hL
            have hDRs : ((y :: rs).dropWhile (fun b => decide (kr b = kr y))).Pairwise
                (fun a b => kr a ≤ kr b) :=
              List.Pairwise.sublist (List.dropWhile_sublist _) hR
            have hDLlen : ((x :: ls).dropWhile (fun a => decide (kl a = kl x))).length
                ≤ ls.length := by
              rw [List.dropWhile_cons, if_pos (by simp)]
              exact (List.dropWhile_sublist _).length_le
            have hDRlen : ((y :: rs).dropWhile (fun b => decide (kr b = kr y))).length
                ≤ rs.length := by
              rw [List.dropWhile_cons, if_pos (by simp)]
              exact (List.dropWhile_sublist _).length_le
            have hfuel2 : ((x :: ls).dropWhile (fun a => decide (kl a = kl x))).length
                + ((y :: rs).dropWhile (fun b => decide (kr b = kr y))).length ≤ fuel := by
              simp only [List.length_cons] at hf
              omega
            -- the cross-product block has length |left run| * |right run|
            have hblock : (((x :: ls).takeWhile (fun a => decide (kl a = kl x))).flatMap
                  (fun a => ((y :: rs).takeWhile (fun b => decide (kr b = kr y))).map
                    (fun b => a ++ b))).length
                = ((x :: ls).takeWhile (fun a => decide (kl a = kl x))).length
                  * ((y :: rs).takeWhile (fun b => decide (kr b = kr y))).length := by
              rw [List.length_flatMap]
              rw [List.map_congr_left (fun a _ => by simp :
                ∀ a ∈ (x :: ls).takeWhile (fun a => decide (kl a = kl x)),
                  (List.length ∘ fun a =>
                    ((y :: rs).takeWhile (fun b => decide (kr b = kr y))).map
                      (fun b => a ++ b)) a
                  = ((y :: rs).takeWhile (fun b => decide (kr b = kr y))).length)]
              exact sum_map_const_nat
            -- every row of the left run matches the whole right run
            have hTLcount : ∀ a ∈ (x :: ls).takeWhile (fun a => decide (kl a = kl x)),
                (y :: rs).countP (fun b => decide (kr b = kl a))
                  = ((y :: rs).takeWhile (fun b => decide (kr b = kr y))).length := by
              intro a ha
              have hka : kl a = kl x :=
                of_decide_eq_true (@List.mem_takeWhile_imp _ _ _ a ha)
              rw [hka, heq]
              exact sorted_countP_key_eq hR (kr y) hheadR
            -- rows of the left remainder only match in the right remainder
            have hDLcount : ∀ a ∈ (x :: ls).dropWhile (fun a => decide (kl a = kl x)),
                (y :: rs).countP (fun b => decide (kr b = kl a))
                  = ((y :: rs).dropWhile (fun b => decide (kr b = kr y))).countP
                      (fun b => decide (kr b = kl a)) := by
              intro a ha
              have hxa : kl x < kl a := hDLgt a ha
              conv_lhs => rw [← List.takeWhile_append_dropWhile
                (fun b => decide (kr b = kr y)) (y :: rs)]
              rw [List.countP_append]
              have hTR0 : ((y :: rs).takeWhile (fun b => decide (kr b = kr y))).countP
                  (fun b => decide (kr b = kl a)) = 0 := by
                rw [List.countP_eq_zero]
                intro b hb
                have hkb : kr b = kr y :=
                  of_decide_eq_true (@List.mem_takeWhile_imp _ _ _ b hb)
                simp only [decide_eq_true_eq]
                rw [hkb, ← heq]
                exact ne_of_lt hxa
              rw [hTR0, Nat.zero_add]
            -- split the right-hand sum along the left run
            have hsum : ((x :: ls).map
                  (fun a => (y :: rs).countP (fun b => decide (kr b = kl a)))).sum
                = (((x :: ls).takeWhile (fun a => decide (kl a = kl x))).map
                    (fun a => (y :: rs).countP (fun b => decide (kr b = kl a)))).sum
                  + (((x :: ls).dropWhile (fun a => decide (kl a = kl x))).map
                    (fun a => (y :: rs).countP (fun b => decide (kr b = kl a)))).sum := by
              conv_lhs => rw [← List.takeWhile_append_dropWhile
                (fun a => decide (kl a = kl x)) (x :: ls)]
              rw [List.map_append, List.sum_append]
            rw [List.length_append, hblock, ih _ _ hfuel2 hDLs hDRs, hsum,
              List.map_congr_left hTLcount, sum_map_const_nat,
              List.map_congr_left hDLcount]

/-! ### Reduction helpers for the fallible steps -/

theorem validate_key_ok {t : Table V} {k : String}
    (h : t.rows = [] ∨ k ∈ t.cols) : validate_key t k = .ok () := by
  unfold validate_key
  rcases h with h | h
  · rw [if_pos (by simp [h])]
  · rw [if_pos (by simp [List.isEmpty_iff, h])]

theorem validate_key_error {t : Table V} {k : String}
    (hrows : t.rows ≠ []) (hk : k ∉ t.cols) :
    validate_key t k = .error (.FieldNotFound k) := by
  unfold validate_key
  rw [if_neg]
  simp [List.isEmpty_iff, hrows, hk]

theorem head_fields_ok {t : Table V} (h : t.rows ≠ []) :
    head_fields t = .ok t.cols := by
  cases ht : t.rows with
  | nil => exact absurd ht h
  | cons r rest => simp [head_fields, ht]

theorem head_fields_error {t : Table V} (h : t.rows = []) :
    head_fields t = .error .IndexOutOfBounds := by
  simp [head_fields, h]

theorem require_nodup_ok {cols : List String} (h : cols.Nodup) :
    require_nodup cols = .ok () := by
  unfold require_nodup
  rw [if_pos h]

theorem pysorted_by_perm [LinearOrder V] [Inhabited V] (key : List V → V)
    (rows : List (List V)) : (pysorted_by key rows).Perm rows :=
  insertionSortB_perm _ _

theorem pysorted_by_sorted [LinearOrder V] [Inhabited V] (key : List V → V)
    (rows : List (List V)) :
    (pysorted_by key rows).Pairwise (fun a b => key a ≤ key b) := by
  have h := @pairwise_insertionSortB (List V)
    (fun a b => decide (key a ≤ key b))
    (fun a b => by
      rcases le_total (key a) (key b) with h | h
      · exact Or.inl (decide_eq_true h)
      · exact Or.inr (decide_eq_true h))
    (fun a b c h1 h2 =>
      decide_eq_true (le_trans (of_decide_eq_true h1) (of_decide_eq_true h2)))
    rows
  exact h.imp (fun hx => of_decide_eq_true hx)

theorem pysorted_by_ne_nil [LinearOrder V] [Inhabited V] {key : List V → V}
    {rows : List (List V)} (h : rows ≠ []) : pysorted_by key rows ≠ [] := by
  intro h0
  apply h
  have hlen := (pysorted_by_perm key rows).length_eq
  rw [h0] at hlen
  exact List.length_eq_zero.mp hlen.symm

/-- When both sides are non-empty, both keys valid and the merged schema
free of duplicates, `merge_join` succeeds and returns the merge loop run
on the two key-sorted sides. -/
theorem merge_join_eq [LinearOrder V] [Inhabited V] {left right : Table V}
    {lk rk : String} (hl : left.rows ≠ []) (hr : right.rows ≠ [])
    (hlk : lk ∈ left.cols) (hrk : rk ∈ right.cols)
    (hnd : (concat_col_names_add_suffix left.cols right.cols lk rk).Nodup) :
    merge_join left right lk rk
      = .ok (concat_col_names_add_suffix left.cols right.cols lk rk,
          merge_loop (cellval left.cols lk) (cellval right.cols rk)
            (pysorted_by (cellval left.cols lk) left.rows)
            (pysorted_by (cellval right.cols rk) right.rows)) := by
  unfold merge_join
  rw [validate_key_ok (Or.inr hlk), validate_key_ok (Or.inr hrk)]
  simp only [Bind.bind, Except.bind]
  rw [head_fields_ok (pysorted_by_ne_nil hl)]
  simp only [Bind.bind, Except.bind]
  rw [head_fields_ok (pysorted_by_ne_nil hr)]
  simp only [Bind.bind, Except.bind]
  rw [require_nodup_ok hnd]

/-- Cardinality of the merge join on well-formed inputs: one output row
per pair of a left row and a right row with equal key values. -/
theorem merge_join_length [LinearOrder V] [Inhabited V] {left right : Table V}
    {lk rk : String} (hl : left.rows ≠ []) (hr : right.rows ≠ [])
    (hlk : lk ∈ left.cols) (hrk : rk ∈ right.cols)
    (hnd : (concat_col_names_add_suffix left.cols right.cols lk rk).Nodup) :
    ∃ out : List String × List (List V),
      merge_join left right lk rk = .ok out ∧
      out.2.length = (left.rows.map (fun a => right.rows.countP
        (fun b => decide (cellval right.cols rk b = cellval left.cols lk a)))).sum := by
  refine ⟨_, merge_join_eq hl hr hlk hrk hnd, ?_⟩
  have hlperm := pysorted_by_perm (cellval left.cols lk) left.rows
  have hrperm := pysorted_by_perm (cellval right.cols rk) right.rows
  have hlen : (merge_loop (cellval left.cols lk) (cellval right.cols rk)
      (pysorted_by (cellval left.cols lk) left.rows)
      (pysorted_by (cellval right.cols rk) right.rows)).length
      = ((pysorted_by (cellval left.cols lk) left.rows).map
          (fun a => (pysorted_by (cellval right.cols rk) right.rows).countP
            (fun b => decide (cellval right.cols rk b = cellval left.cols lk a)))).sum :=
    merge_scan_length (cellval left.cols lk) (cellval right.cols rk) _ _ _
      le_rfl (pysorted_by_sorted _ _) (pysorted_by_sorted _ _)
  rw [hlen]
  have hpt : ∀ a ∈ pysorted_by (cellval left.cols lk) left.rows,
      (pysorted_by (cellval right.cols rk) right.rows).countP
          (fun b => decide (cellval right.cols rk b = cellval left.cols lk a))
        = right.rows.countP
          (fun b => decide (cellval right.cols rk b = cellval left.cols lk a)) :=
    fun a _ => hrperm.countP_eq _
  rw [List.map_congr_left hpt]
  exact (hlperm.map _).sum_eq

/-! ### Join behaviour on empty inputs and on unknown columns -/

theorem inner_hash_join_empty [DecidableEq V] [Inhabited V] {left right : Table V}
    {lk rk : String} (hempty : left.rows = [] ∨ right.rows = [])
    (hrk : right.rows = [] ∨ rk ∈ right.cols) :
    inner_hash_join left right lk rk = .error .IndexOutOfBounds := by
  unfold inner_hash_join
  rw [validate_key_ok hrk]
  simp only [Bind.bind, Except.bind]
  rcases hempty with h | h
  · rw [head_fields_error h]
  · cases hleft : left.rows with
    | nil => rw [head_fields_error hleft]
    | cons r rest =>
      rw [head_fields_ok (by rw [hleft]; simp)]
      simp only [Bind.bind, Except.bind]
      rw [head_fields_error h]

theorem merge_join_empty [LinearOrder V] [Inhabited V] {left right : Table V}
    {lk rk : String} (hempty : left.rows = [] ∨ right.rows = [])
    (hlk : left.rows = [] ∨ lk ∈ left.cols)
    (hrk : right.rows = [] ∨ rk ∈ right.cols) :
    merge_join left right lk rk = .error .IndexOutOfBounds := by
  unfold merge_join
  rw [validate_key_ok hlk, validate_key_ok hrk]
  simp only [Bind.bind, Except.bind]
  rcases hempty with h | h
  · have hsl : pysorted_by (cellval left.cols lk) left.rows = [] := by
      rw [h]
      rfl
    rw [@head_fields_error V
      ⟨left.cols, pysorted_by (cellval left.cols lk) left.rows⟩ hsl]
  · cases hsl : pysorted_by (cellval left.cols lk) left.rows with
    | nil => rw [@head_fields_error V ⟨left.cols, []⟩ rfl]
    | cons r rest =>
      rw [@head_fields_ok V ⟨left.cols, r :: rest⟩ (by simp)]
      simp only [Bind.bind, Except.bind]
      have hsr : pysorted_by (cellval right.cols rk) right.rows = [] := by
        rw [h]
        rfl
      rw [@head_fields_error V
        ⟨right.cols, pysorted_by (cellval right.cols rk) right.rows⟩ hsr]

theorem inner_hash_join_rk_error [DecidableEq V] [Inhabited V] {left right : Table V}
    {lk rk : String} (hr : right.rows ≠ []) (hrk : rk ∉ right.cols) :
    inner_hash_join left right lk rk = .error (.FieldNotFound rk) := by
  unfold inner_hash_join
  rw [validate_key_error hr hrk]
  rfl

theorem inner_hash_join_lk_error [DecidableEq V] [Inhabited V] {left right : Table V}
    {lk rk : String} (hl : left.rows ≠ []) (hr : right.rows ≠ [])
    (hrk : rk ∈ right.cols)
    (hnd : (concat_col_names_add_suffix left.cols right.cols lk rk).Nodup)
    (hlk : lk ∉ left.cols) :
    inner_hash_join left right lk rk = .error (.FieldNotFound lk) := by
  unfold inner_hash_join
  rw [validate_key_ok (Or.inr hrk)]
  simp only [Bind.bind, Except.bind]
  rw [head_fields_ok hl]
  simp only [Bind.bind, Except.bind]
  rw [head_fields_ok hr]
  simp only [Bind.bind, Except.bind]
  rw [require_nodup_ok hnd]
  simp only [Bind.bind, Except.bind]
  rw [validate_key_error hl hlk]

theorem merge_join_lk_error [LinearOrder V] [Inhabited V] {left right : Table V}
    {lk rk : String} (hl : left.rows ≠ []) (hlk : lk ∉ left.cols) :
    merge_join left right lk rk = .error (.FieldNotFound lk) := by
  unfold merge_join
  rw [validate_key_error hl hlk]
  rfl

theorem merge_join_rk_error [LinearOrder V] [Inhabited V] {left right : Table V}
    {lk rk : String} (hlk : left.rows = [] ∨ lk ∈ left.cols)
    (hr : right.rows ≠ []) (hrk : rk ∉ right.cols) :
    merge_join left right lk rk = .error (.FieldNotFound rk) := by
  unfold merge_join
  rw [validate_key_ok hlk]
  simp only [Bind.bind, Except.bind]
  rw [validate_key_error hr hrk]

/-! ### WHERE filter: characterization -/

theorem getattr_ok [Inhabited V] {cols : List String} {row : List V} {name : String}
    (h : name ∈ cols) : getattr cols row name = .ok (cellval cols name row) := by
  unfold getattr cellval
  rw [if_pos (by simp [h])]

theorem getattr_error [Inhabited V] {cols : List String} {row : List V} {name : String}
    (h : name ∉ cols) : getattr cols row name = .error (.FieldNotFound name) := by
  unfold getattr
  rw [if_neg (by simp [h])]

theorem row_passes_ok [DecidableEq V] [Inhabited V] {cols : List String}
    {filters : List (String × V)} {row : List V}
    (hkeys : ∀ kv ∈ filters, kv.1 ∈ cols) :
    row_passes cols filters row
      = .ok (filters.all (fun kv => decide (cellval cols kv.1 row = kv.2))) := by
  induction filters with
  | nil => rfl
  | cons kv rest ih =>
    obtain ⟨k, v⟩ := kv
    have hk : k ∈ cols := hkeys (k, v) (List.mem_cons_self _ _)
    simp only [row_passes, getattr_ok hk, Bind.bind, Except.bind]
    by_cases hv : cellval cols k row = v
    · rw [if_pos hv, ih (fun kv2 h2 => hkeys kv2 (List.mem_cons_of_mem _ h2))]
      simp [List.all_cons, hv]
    · rw [if_neg hv]
      simp [List.all_cons, hv]

theorem filter_rows_ok [DecidableEq V] [Inhabited V] {cols : List String}
    {filters : List (String × V)} (hkeys : ∀ kv ∈ filters, kv.1 ∈ cols)
    (rows : List (List V)) :
    filter_rows cols filters rows
      = .ok (rows.filter
          (fun row => filters.all (fun kv => decide (cellval cols kv.1 row = kv.2)))) := by
  induction rows with
  | nil => rfl
  | cons r rs ih =>
    simp only [filter_rows, row_passes_ok hkeys, ih, Bind.bind, Except.bind]
    rw [List.filter_cons]

/-- Characterization of the WHERE filter on valid column names: the
result keeps the schema and filters the rows by the conjunction of the
cell equalities, in order. -/
theorem read_with_where_filter_ok [DecidableEq V] [Inhabited V] {t : Table V}
    {filters : List (String × V)} (hkeys : ∀ kv ∈ filters, kv.1 ∈ t.cols) :
    read_with_where_filter t filters
      = .ok ⟨t.cols, t.rows.filter
          (fun row => filters.all (fun kv => decide (cellval t.cols kv.1 row = kv.2)))⟩ := by
  simp only [read_with_where_filter, filter_rows_ok hkeys, Bind.bind, Except.bind]

theorem read_with_where_filter_field_error [DecidableEq V] [Inhabited V]
    {t : Table V} {k : String} {v : V} {rest : List (String × V)}
    (hrows : t.rows ≠ []) (hk : k ∉ t.cols) :
    read_with_where_filter t ((k, v) :: rest) = .error (.FieldNotFound k) := by
  cases hr : t.rows with
  | nil => exact absurd hr hrows
  | cons r rs =>
    simp only [read_with_where_filter, hr, filter_rows, row_passes,
      getattr_error hk, Bind.bind, Except.bind]

/-! ### GROUP BY: characterization -/

theorem mapM_getattr_ok [Inhabited V] {cols : List String} {row : List V}
    {aggs : List String} (h : ∀ a ∈ aggs, a ∈ cols) :
    aggs.mapM (getattr cols row) = .ok (aggs.map (fun a => cellval cols a row)) := by
  induction aggs with
  | nil => rfl
  | cons a rest ih =>
    simp only [List.mapM_cons, getattr_ok (h a (List.mem_cons_self _ _)),
      ih (fun a2 h2 => h a2 (List.mem_cons_of_mem _ h2)),
      Bind.bind, Except.bind, List.map_cons, pure, Except.pure]

theorem group_loop_ok [DecidableEq V] [Inhabited V] {cols : List String}
    {gk : String} {aggs : List String} (hgk : gk ∈ cols)
    (haggs : ∀ a ∈ aggs, a ∈ cols) :
    ∀ (rows : List (List V)) (acc : V → List (List V)),
      group_loop cols gk aggs rows acc
        = .ok (fun q => acc q
            ++ (rows.filter (fun r => decide (cellval cols gk r = q))).map
                (fun r => aggs.map (fun a => cellval cols a r))) := by
  intro rows
  induction rows with
  | nil =>
    intro acc
    simp only [group_loop, List.filter_nil, List.map_nil, List.append_nil]
  | cons r rs ih =>
    intro acc
    simp only [group_loop, getattr_ok hgk, mapM_getattr_ok haggs,
      Bind.bind, Except.bind, ih]
    refine congrArg Except.ok ?_
    funext q
    rw [List.filter_cons]
    by_cases hq : cellval cols gk r = q
    · simp [hq.symm, List.append_assoc]
    · have hq2 : ¬ q = cellval cols gk r := fun h2 => hq h2.symm
      simp [hq, hq2]

/-- Characterization of `group_by` on valid column names: the returned
defaultdict maps every value `q` to the projected tuples of exactly the
rows whose group-key cell equals `q`, in input row order (missing keys
map to the empty list). -/
theorem group_by_ok [DecidableEq V] [Inhabited V] {t : Table V} {gk : String}
    {aggs : List String} (hgk : gk ∈ t.cols) (haggs : ∀ a ∈ aggs, a ∈ t.cols) :
    group_by t gk aggs
      = .ok (fun q => (t.rows.filter (fun r => decide (cellval t.cols gk r = q))).map
          (fun r => aggs.map (fun a => cellval t.cols a r))) := by
  rw [group_by, group_loop_ok hgk haggs t.rows (fun _ => [])]
  refine congrArg Except.ok ?_
  funext q
  simp

theorem group_by_key_error [DecidableEq V] [Inhabited V] {t : Table V}
    {gk : String} {aggs : List String} (hrows : t.rows ≠ []) (hk : gk ∉ t.cols) :
    group_by t gk aggs = .error (.FieldNotFound gk) := by
  cases hr : t.rows with
  | nil => exact absurd hr hrows
  | cons r rs =>
    simp only [group_by, hr, group_loop, getattr_error hk, Bind.bind, Except.bind]

theorem group_by_agg_error [DecidableEq V] [Inhabited V] {t : Table V}
    {gk a : String} {aggs : List String} (hrows : t.rows ≠ []) (hgk : gk ∈ t.cols)
    (ha : a ∉ t.cols) :
    group_by t gk (a :: aggs) = .error (.FieldNotFound a) := by
  cases hr : t.rows with
  | nil => exact absurd hr hrows
  | cons r rs =>
    simp only [group_by, hr, group_loop, getattr_ok hgk, List.mapM_cons,
      getattr_error ha, Bind.bind, Except.bind]

/-- Sum of all group sizes over the distinct key values equals the
number of input rows. -/
theorem sum_group_sizes [DecidableEq V] [Inhabited V] (cols : List String)
    (gk : String) (aggs : List String) (rows : List (List V)) :
    (((rows.map (cellval cols gk)).dedup).map (fun k =>
      ((rows.filter (fun r => decide (cellval cols gk r = k))).map
        (fun r => aggs.map (fun a => cellval cols a r))).length)).sum
      = rows.length := by
  have h1 : ∀ k, ((rows.filter (fun r => decide (cellval cols gk r = k))).map
      (fun r => aggs.map (fun a => cellval cols a r))).length
      = (rows.map (cellval cols gk)).count k := by
    intro k
    rw [List.length_map, ← List.countP_eq_length_filter, List.count, List.countP_map]
    rfl
  rw [List.map_congr_left (fun k _ => h1 k), List.sum_map_count_dedup_eq_length,
    List.length_map]

/-! ### Schema merge: characterization -/

theorem concat_cols_length (lc rc : List String) (lk rk : String) :
    (concat_col_names_add_suffix lc rc lk rk).length = lc.length + rc.length := by
  simp [concat_col_names_add_suffix]

theorem concat_cols_getElem_left {lc rc : List String} {lk rk : String} {i : Nat}
    (h : i < lc.length) :
    (concat_col_names_add_suffix lc rc lk rk)[i]?
      = (lc[i]?).map (fun c => if c = lk then c ++ "_left" else c) := by
  unfold concat_col_names_add_suffix
  rw [List.getElem?_append, if_pos (by simpa using h), List.getElem?_map]

theorem concat_cols_getElem_right {lc rc : List String} {lk rk : String} {i : Nat} :
    (concat_col_names_add_suffix lc rc lk rk)[lc.length + i]?
      = (rc[i]?).map (fun c => if c = rk then c ++ "_right" else c) := by
  unfold concat_col_names_add_suffix
  rw [List.getElem?_append_right (by simp), List.getElem?_map]
  simp

theorem all_tied_lex_le [LinearOrder V] [Inhabited V] {orders : List (Nat × String)}
    {x y : List V} (h : all_tied orders x y = true) : lex_le orders x y = true := by
  induction orders with
  | nil => rfl
  | cons io rest ih =>
    obtain ⟨index, direction⟩ := io
    rw [all_tied, List.all_cons] at h
    rcases Bool.and_eq_true_iff.mp h with ⟨h1, h2⟩
    rw [lex_le, if_pos (of_decide_eq_true h1)]
    exact ih h2

/-! ### The claims -/

/-- Claim C1: the spec asserts that for every pair of non-empty tables
and valid key selectors the multiset of joined rows of `inner_hash_join`
equals that of `merge_join`.  The code refutes this: the hash join's
index is a dict comprehension over `itertools.groupby` of the unsorted
right table, which groups only consecutive runs and keeps the last run
per key, so non-adjacent equal-key rows are dropped.  Evaluated at such
an input the hash join returns one row where the merge join returns two,
and the multisets of joined rows differ. -/
theorem C1_hash_join_and_merge_join_disagree :
    inner_hash_join (⟨["a", "lv"], [[1, 100]]⟩ : Table Nat)
        ⟨["b", "rv"], [[1, 7], [2, 8], [1, 9]]⟩ "a" "b"
      = .ok (["a_left", "lv", "b_right", "rv"], [[1, 100, 1, 9]])
    ∧ merge_join (⟨["a", "lv"], [[1, 100]]⟩ : Table Nat)
        ⟨["b", "rv"], [[1, 7], [2, 8], [1, 9]]⟩ "a" "b"
      = .ok (["a_left", "lv", "b_right", "rv"], [[1, 100, 1, 7], [1, 100, 1, 9]])
    ∧ (Multiset.ofList [[1, 100, 1, 9]] : Multiset (List Nat))
        ≠ Multiset.ofList [[1, 100, 1, 7], [1, 100, 1, 9]] :=
  ⟨rfl, rfl, by decide⟩

/-- Claim C2: the spec asserts that the hash join's index maps each
right-key value to the bucket of all right rows with that key, in
original order.  The code refutes this: with right rows
[[1,7],[2,8],[1,9]] keyed on column b, the rows with key 1 are
[[1,7],[1,9]], but the index built from `groupby` maps 1 to [[1,9]]
only (the last consecutive run), and the join output pairs the left row
only with that run. -/
theorem C2_hash_index_keeps_last_run_only :
    pydict (pygroupby (cellval ["b", "rv"] "b")
        ([[1, 7], [2, 8], [1, 9]] : List (List Nat))) 1 = some [[1, 9]]
    ∧ ([[1, 7], [2, 8], [1, 9]] : List (List Nat)).filter
        (fun r => decide (cellval ["b", "rv"] "b" r = 1)) = [[1, 7], [1, 9]]
    ∧ inner_hash_join (⟨["a", "lv"], [[1, 100]]⟩ : Table Nat)
        ⟨["b", "rv"], [[1, 7], [2, 8], [1, 9]]⟩ "a" "b"
      = .ok (["a_left", "lv", "b_right", "rv"], [[1, 100, 1, 9]]) :=
  ⟨rfl, rfl, rfl⟩

/-- Claim C3: for non-empty tables whose key values are totally ordered
(and a join that completes: both key selectors valid and the merged
schema free of duplicate names, so the namedtuple declaration succeeds),
the number of rows returned by `merge_join` equals the sum, over each
left row, of the number of right rows whose key value equals that left
row's key value. -/
theorem C3_merge_join_cardinality {V : Type} [LinearOrder V] [Inhabited V]
    (left right : Table V) (lk rk : String)
    (hl : left.rows ≠ []) (hr : right.rows ≠ [])
    (hlk : lk ∈ left.cols) (hrk : rk ∈ right.cols)
    (hnd : (concat_col_names_add_suffix left.cols right.cols lk rk).Nodup) :
    ∃ out : List String × List (List V),
      merge_join left right lk rk = .ok out ∧
      out.2.length = (left.rows.map (fun a => right.rows.countP
        (fun b => decide (cellval right.cols rk b = cellval left.cols lk a)))).sum :=
  merge_join_length hl hr hlk hrk hnd

/-- Witness for C3 at a concrete many-to-many join: two left rows with
key 1 against right keys [1,1,2]. -/
theorem C3_merge_join_cardinality_witness :
    ∃ out : List String × List (List Nat),
      merge_join (⟨["a"], [[1], [1]]⟩ : Table Nat) ⟨["b"], [[1], [1], [2]]⟩ "a" "b"
        = .ok out ∧
      out.2.length = (([[1], [1]] : List (List Nat)).map
        (fun a => ([[1], [1], [2]] : List (List Nat)).countP
          (fun b => decide (cellval ["b"] "b" b = cellval ["a"] "a" a)))).sum :=
  C3_merge_join_cardinality ⟨["a"], [[1], [1]]⟩ ⟨["b"], [[1], [1], [2]]⟩ "a" "b"
    (by decide) (by decide) (by decide) (by decide) (by decide)

/-- Claim C4 counterexample: the claim renames the two join-key columns
only when they collide.  With left schema [id, x], right schema [uid, y]
and keys id and uid, no name occurs on both sides, yet the code still
renames both key columns: the merged schema is
[id_left, x, uid_right, y], not [id, x, uid, y]. -/
theorem C4_renaming_without_collision :
    (∀ c ∈ (["id", "x"] : List String), c ∉ (["uid", "y"] : List String))
    ∧ concat_col_names_add_suffix ["id", "x"] ["uid", "y"] "id" "uid"
        = ["id_left", "x", "uid_right", "y"]
    ∧ concat_col_names_add_suffix ["id", "x"] ["uid", "y"] "id" "uid"
        ≠ ["id", "x", "uid", "y"] :=
  ⟨by decide, rfl, by decide⟩

/-- Claim C4 as amended: the merged schema length is the sum of the two
schema lengths; position i < |left| holds left[i], suffixed _left exactly
when it equals the left join key, and position |left| + i holds right[i],
suffixed _right exactly when it equals the right join key — the renaming
is unconditional, applied whether or not the key names collide, and every
other column keeps its name. -/
theorem C4_schema_merge (lc rc : List String) (lk rk : String) :
    (concat_col_names_add_suffix lc rc lk rk).length = lc.length + rc.length
    ∧ (∀ i : Nat, i < lc.length →
        (concat_col_names_add_suffix lc rc lk rk)[i]?
          = (lc[i]?).map (fun c => if c = lk then c ++ "_left" else c))
    ∧ (∀ i : Nat,
        (concat_col_names_add_suffix lc rc lk rk)[lc.length + i]?
          = (rc[i]?).map (fun c => if c = rk then c ++ "_right" else c)) :=
  ⟨concat_cols_length lc rc lk rk,
   fun _ hi => concat_cols_getElem_left hi,
   fun _ => concat_cols_getElem_right⟩

/-- Witness for C4 at the concrete no-collision schemas. -/
theorem C4_schema_merge_witness :
    (concat_col_names_add_suffix ["id", "x"] ["uid", "y"] "id" "uid").length = 2 + 2
    ∧ (concat_col_names_add_suffix ["id", "x"] ["uid", "y"] "id" "uid")[0]?
        = ((["id", "x"] : List String)[0]?).map
            (fun c => if c = "id" then c ++ "_left" else c)
    ∧ (concat_col_names_add_suffix ["id", "x"] ["uid", "y"] "id" "uid")[2 + 0]?
        = ((["uid", "y"] : List String)[0]?).map
            (fun c => if c = "uid" then c ++ "_right" else c) :=
  ⟨(C4_schema_merge ["id", "x"] ["uid", "y"] "id" "uid").1,
   (C4_schema_merge ["id", "x"] ["uid", "y"] "id" "uid").2.1 0 (by decide),
   (C4_schema_merge ["id", "x"] ["uid", "y"] "id" "uid").2.2 0⟩

/-- Claim C5 counterexample: joining a non-empty left table against an
empty right table does not yield an empty result without error; both
joins fail with the index-out-of-bounds error of reading
`right[0]._fields` on a zero-row table — precisely the failure mode the
claim says is avoided — and no EmptyTableJoin error exists in the code. -/
theorem C5_empty_right_join_errors :
    inner_hash_join (⟨["a"], [[1]]⟩ : Table Nat) ⟨["b"], []⟩ "a" "b"
      = .error .IndexOutOfBounds
    ∧ merge_join (⟨["a"], [[1]]⟩ : Table Nat) ⟨["b"], []⟩ "a" "b"
      = .error .IndexOutOfBounds :=
  ⟨rfl, rfl⟩

/-- Claim C5 as amended: whenever either side of a join has zero rows
(with the key selectors valid on every non-empty side, so that no
FieldNotFound fires first), both joins fail with the index-out-of-bounds
error from reading `[0]._fields` of the empty side; there is no
empty-result shortcut and no dedicated EmptyTableJoin error. -/
theorem C5_empty_join_indexes_past_end {V : Type} [LinearOrder V] [Inhabited V]
    (left right : Table V) (lk rk : String)
    (hempty : left.rows = [] ∨ right.rows = [])
    (hlk : left.rows = [] ∨ lk ∈ left.cols)
    (hrk : right.rows = [] ∨ rk ∈ right.cols) :
    inner_hash_join left right lk rk = .error .IndexOutOfBounds
    ∧ merge_join left right lk rk = .error .IndexOutOfBounds :=
  ⟨inner_hash_join_empty hempty hrk, merge_join_empty hempty hlk hrk⟩

/-- Witness for C5: a one-row left table joined against an empty right
table, through both join strategies. -/
theorem C5_empty_join_witness :
    inner_hash_join (⟨["a"], [[2]]⟩ : Table Nat) ⟨["b"], []⟩ "a" "b"
      = .error .IndexOutOfBounds
    ∧ merge_join (⟨["a"], [[2]]⟩ : Table Nat) ⟨["b"], []⟩ "a" "b"
      = .error .IndexOutOfBounds :=
  C5_empty_join_indexes_past_end ⟨["a"], [[2]]⟩ ⟨["b"], []⟩ "a" "b"
    (Or.inr rfl) (Or.inr (by decide)) (Or.inl rfl)

/-- Claim C6: with every filter key a valid column name, the WHERE
filter returns exactly the rows on which every named column equals its
required value (conjunction of equalities), as a subsequence of the
table in original order; the empty filter map returns the table
unchanged. -/
theorem C6_filter_characterization {V : Type} [DecidableEq V] [Inhabited V]
    (t : Table V) (filters : List (String × V))
    (hkeys : ∀ kv ∈ filters, kv.1 ∈ t.cols) :
    read_with_where_filter t filters
      = .ok ⟨t.cols, t.rows.filter
          (fun row => filters.all (fun kv => decide (cellval t.cols kv.1 row = kv.2)))⟩
    ∧ (t.rows.filter
        (fun row => filters.all
          (fun kv => decide (cellval t.cols kv.1 row = kv.2)))).Sublist t.rows
    ∧ read_with_where_filter t [] = .ok t := by
  refine ⟨read_with_where_filter_ok hkeys, List.filter_sublist _, ?_⟩
  rw [read_with_where_filter_ok (by simp)]
  simp

/-- Witness for C6 at a concrete table and a one-column filter. -/
theorem C6_filter_witness :
    read_with_where_filter (⟨["u", "w"], [[1, 2], [3, 4], [1, 6]]⟩ : Table Nat)
        [("u", 1)]
      = .ok ⟨["u", "w"], [[1, 2], [1, 6]]⟩
    ∧ read_with_where_filter (⟨["u", "w"], [[1, 2], [3, 4], [1, 6]]⟩ : Table Nat) []
      = .ok ⟨["u", "w"], [[1, 2], [3, 4], [1, 6]]⟩ :=
  ⟨(C6_filter_characterization (⟨["u", "w"], [[1, 2], [3, 4], [1, 6]]⟩ : Table Nat)
      [("u", 1)] (by decide)).1,
   (C6_filter_characterization (⟨["u", "w"], [[1, 2], [3, 4], [1, 6]]⟩ : Table Nat)
      [("u", 1)] (by decide)).2.2⟩

/-- Claim C7: `order_by` iterates the specification in reverse, applying
one stable sort per (column index, direction) pair with the comparison
reversed for DESC; with every referenced index in range, the net effect
is one stable sort by the lexicographic comparator of the specification
(so the primary key dominates and later keys break ties), the output is
a permutation of the input, it is lexicographically sorted, rows tied on
every key keep their original relative order, and the spec's example
[[1,2],[1,1],[2,5]] under [(0,DESC),(1,ASC)] yields [[2,5],[1,1],[1,2]]. -/
theorem C7_order_by_multi_pass {W : Type} [LinearOrder W] [Inhabited W] :
    (∀ (data : List (List W)) (orders : List (Nat × String)),
      (∀ r ∈ data, ∀ io ∈ orders, io.1 < r.length) →
      order_by data orders = .ok (insertionSortB (lex_le orders) data)
      ∧ (insertionSortB (lex_le orders) data).Perm data
      ∧ (insertionSortB (lex_le orders) data).Pairwise
          (fun x y => lex_le orders x y = true)
      ∧ (∀ c : List (List W), c.Sublist data →
          (∀ x ∈ c, ∀ y ∈ c, all_tied orders x y = true) →
          c.Sublist (insertionSortB (lex_le orders) data)))
    ∧ order_by ([[1, 2], [1, 1], [2, 5]] : List (List Int)) [(0, "DESC"), (1, "ASC")]
        = .ok [[2, 5], [1, 1], [1, 2]] := by
  constructor
  · intro data orders hvalid
    refine ⟨order_by_eq_lex_sort data orders hvalid, insertionSortB_perm _ _,
      pairwise_insertionSortB (lex_le_total orders) (lex_le_trans orders) data, ?_⟩
    intro c hc htied
    exact sublist_insertionSortB
      (List.pairwise_of_forall_mem_list
        (fun x hx y hy => all_tied_lex_le (htied x hx y hy)))
      hc
  · rfl

/-- Witness for C7: a two-row single-key sort through the theorem. -/
theorem C7_order_by_witness :
    order_by ([[3], [1]] : List (List Int)) [(0, "ASC")]
      = .ok (insertionSortB (lex_le [(0, "ASC")]) [[3], [1]]) :=
  ((@C7_order_by_multi_pass Int _ _).1 [[3], [1]] [(0, "ASC")] (by decide)).1

/-- Claim C8: with a valid group key and valid aggregation columns,
`group_by` returns a mapping sending each value q to the ordered list of
projected aggregation tuples of exactly the rows whose group-key cell is
q, in input row order; consequently the group sizes over the distinct
key values sum to the number of input rows. -/
theorem C8_group_by_staging {V : Type} [DecidableEq V] [Inhabited V]
    (t : Table V) (gk : String) (aggs : List String)
    (hgk : gk ∈ t.cols) (haggs : ∀ a ∈ aggs, a ∈ t.cols) (_hne : aggs ≠ []) :
    ∃ g : V → List (List V), group_by t gk aggs = .ok g
      ∧ (∀ q, g q = (t.rows.filter (fun r => decide (cellval t.cols gk r = q))).map
          (fun r => aggs.map (fun a => cellval t.cols a r)))
      ∧ (((t.rows.map (cellval t.cols gk)).dedup).map (fun k => (g k).length)).sum
          = t.rows.length := by
  refine ⟨_, group_by_ok hgk haggs, fun q => rfl, ?_⟩
  exact sum_group_sizes t.cols gk aggs t.rows

/-- Witness for C8 at a concrete three-row table with two groups. -/
theorem C8_group_by_witness :
    ∃ g : Nat → List (List Nat),
      group_by (⟨["c", "x"], [[5, 1], [6, 2], [5, 3]]⟩ : Table Nat) "c" ["x"] = .ok g
      ∧ g 5 = [[1], [3]] := by
  obtain ⟨g, hok, hchar, hsum⟩ := C8_group_by_staging
    (⟨["c", "x"], [[5, 1], [6, 2], [5, 3]]⟩ : Table Nat) "c" ["x"]
    (by decide) (by decide) (by decide)
  exact ⟨g, hok, (hchar 5).trans (by rfl)⟩

/-- Claim C9: every name-resolving operator — the WHERE filter, both
joins (probe key and build key) and group-by (group key and aggregation
columns) — fails with FieldNotFound when it references a column name
absent from the relevant schema, provided execution reaches the
reference (the table consulted is non-empty and no earlier step failed).
`order_by` addresses columns by integer position only and can never
reference a column name, so the claim is vacuously true of it. -/
theorem C9_field_not_found {V : Type} [LinearOrder V] [Inhabited V] :
    (∀ (t : Table V) (k : String) (v : V) (rest : List (String × V)),
      t.rows ≠ [] → k ∉ t.cols →
      read_with_where_filter t ((k, v) :: rest) = .error (.FieldNotFound k))
    ∧ (∀ (left right : Table V) (lk rk : String),
      right.rows ≠ [] → rk ∉ right.cols →
      inner_hash_join left right lk rk = .error (.FieldNotFound rk))
    ∧ (∀ (left right : Table V) (lk rk : String),
      left.rows ≠ [] → right.rows ≠ [] → rk ∈ right.cols →
      (concat_col_names_add_suffix left.cols right.cols lk rk).Nodup →
      lk ∉ left.cols →
      inner_hash_join left right lk rk = .error (.FieldNotFound lk))
    ∧ (∀ (left right : Table V) (lk rk : String),
      left.rows ≠ [] → lk ∉ left.cols →
      merge_join left right lk rk = .error (.FieldNotFound lk))
    ∧ (∀ (left right : Table V) (lk rk : String),
      (left.rows = [] ∨ lk ∈ left.cols) → right.rows ≠ [] → rk ∉ right.cols →
      merge_join left right lk rk = .error (.FieldNotFound rk))
    ∧ (∀ (t : Table V) (gk : String) (aggs : List String),
      t.rows ≠ [] → gk ∉ t.cols →
      group_by t gk aggs = .error (.FieldNotFound gk))
    ∧ (∀ (t : Table V) (gk a : String) (aggs : List String),
      t.rows ≠ [] → gk ∈ t.cols → a ∉ t.cols →
      group_by t gk (a :: aggs) = .error (.FieldNotFound a)) :=
  ⟨fun _ _ _ _ h1 h2 => read_with_where_filter_field_error h1 h2,
   fun _ _ _ _ h1 h2 => inner_hash_join_rk_error h1 h2,
   fun _ _ _ _ h1 h2 h3 h4 h5 => inner_hash_join_lk_error h1 h2 h3 h4 h5,
   fun _ _ _ _ h1 h2 => merge_join_lk_error h1 h2,
   fun _ _ _ _ h1 h2 h3 => merge_join_rk_error h1 h2 h3,
   fun _ _ _ h1 h2 => group_by_key_error h1 h2,
   fun _ _ _ _ h1 h2 h3 => group_by_agg_error h1 h2 h3⟩

/-- Witness for C9: unknown column zz through the filter and through the
group-by key. -/
theorem C9_field_not_found_witness :
    read_with_where_filter (⟨["u"], [[1]]⟩ : Table Nat) [("zz", 5)]
      = .error (.FieldNotFound "zz")
    ∧ group_by (⟨["u"], [[1]]⟩ : Table Nat) "zz" ["u"]
      = .error (.FieldNotFound "zz") :=
  ⟨(@C9_field_not_found Nat _ _).1 ⟨["u"], [[1]]⟩ "zz" 5 [] (by decide) (by decide),
   (@C9_field_not_found Nat _ _).2.2.2.2.2.1 ⟨["u"], [[1]]⟩ "zz" ["u"]
     (by decide) (by decide)⟩

/-- Claim C10: the mapping `group_by` returns is a defaultdict: with
valid columns, looking up a group-key value that occurs in no input row
yields the empty list rather than an error. -/
theorem C10_group_by_defaultdict {V : Type} [DecidableEq V] [Inhabited V]
    (t : Table V) (gk : String) (aggs : List String)
    (hgk : gk ∈ t.cols) (haggs : ∀ a ∈ aggs, a ∈ t.cols) :
    ∃ g : V → List (List V), group_by t gk aggs = .ok g
      ∧ ∀ q : V, q ∉ t.rows.map (cellval t.cols gk) → g q = [] := by
  refine ⟨_, group_by_ok hgk haggs, ?_⟩
  intro q hq
  have hnil : t.rows.filter (fun r => decide (cellval t.cols gk r = q)) = [] := by
    rw [List.filter_eq_nil_iff]
    intro r hr hcontra
    exact hq (List.mem_map.mpr ⟨r, hr, of_decide_eq_true hcontra⟩)
  simp [hnil]

/-- Witness for C10: looking up the absent key 7. -/
theorem C10_group_by_defaultdict_witness :
    ∃ g : Nat → List (List Nat),
      group_by (⟨["c", "x"], [[5, 1]]⟩ : Table Nat) "c" ["x"] = .ok g ∧ g 7 = [] := by
  obtain ⟨g, hok, hdef⟩ := C10_group_by_defaultdict
    (⟨["c", "x"], [[5, 1]]⟩ : Table Nat) "c" ["x"] (by decide) (by decide)
  exact ⟨g, hok, hdef 7 (by decide)⟩

end SqlEngine


